import Mathlib

/-!
Verification development for the PymvDB repository (a minimal image
vector-similarity store).  The Python sources under `PymvDB/` are shallowly
embedded below: pure fragments become Lean functions, the SQLite table backing
a collection becomes an explicit list of rows, and Python exceptions become
`Except` values.  Floating-point similarity scores are modelled by exact
rationals (the claims under study concern the filtering / counting / ordering
structure of the code, which is uniform in the numeric type); the one place
where IEEE behaviour itself matters (division by a zero norm in
`calculate_cosine_similarity`) is modelled symbolically by a `NpFloat` value
with explicit `nan` / `inf` constructors, following numpy semantics.
-/

namespace PymvDB

/-! ## Metadata values

Python metadata dictionaries map string keys to scalar values.  JSON null /
Python `None` is included because `json.loads` can produce it and because
`dict.get` uses `None` as its default for a missing key.  Numbers are
restricted to integers (floating-point metadata values are outside the scope
of this development). -/

inductive Value where
  | null
  | bool (b : Bool)
  | int (n : ℤ)
  | str (s : String)
deriving DecidableEq, Repr

/-- A Python dict of metadata, modelled as an association list with (in
practice) distinct keys, in insertion order. -/
abbrev Metadata := List (String × Value)

/-- Python `==` on scalar values: `None == None`, structural equality within a
type, and numeric equality across `bool`/`int` (`True == 1`, `False == 0`,
because Python `bool` is a subtype of `int`).  All other cross-type
comparisons are `False` (never an exception). -/
def pyEq : Value → Value → Bool
  | .null, .null => true
  | .bool a, .bool b => a == b
  | .int a, .int b => a == b
  | .str a, .str b => a == b
  | .bool a, .int b => (if a then (1 : ℤ) else 0) == b
  | .int a, .bool b => a == (if b then (1 : ℤ) else 0)
  | _, _ => false

/-- Python `metadata.get(key)`: the value stored under `key`, or `None` when
the key is absent. -/
def dictGet (m : Metadata) (k : String) : Value :=
  (List.lookup k m).getD .null

/-- Loop body of `Collection._metadata_matches` (Collection.py 281-284):
`for key, value in where.items(): if metadata.get(key) != value: return False`. -/
def matchesLoop (metadata : Metadata) : Metadata → Bool
  | [] => true
  | (k, v) :: rest =>
    if pyEq (dictGet metadata k) v then matchesLoop metadata rest else false

/-- `Collection._metadata_matches` (Collection.py 263-284).  `where = None` is
modelled by `none`; `if not where: return True` also fires on an empty dict. -/
def metadata_matches (metadata : Metadata) (w : Option Metadata) : Bool :=
  match w with
  | none => true
  | some kvs => if kvs.isEmpty then true else matchesLoop metadata kvs

/-! ## The query pipeline of `Collection.find_similar_images`

`get_all_vectors` (Collection.py 193-218) returns four parallel lists, one
entry per table row in rowid (= insertion) order.  `find_similar_images`
(Collection.py 220-261) zips them by index; we model the rows directly. -/

/-- One deserialized row as consumed by `find_similar_images`: the columns
`image_base64`, `image_file_name`, the float32 vector (here: exact rationals)
and the parsed metadata.  The list order of a table models rowid order, which
is insertion order. -/
structure StoredImage where
  image_base64 : String
  image_file_name : String
  vector : List ℚ
  metadata : Metadata
deriving DecidableEq, Repr

/-- The tuple `(paths[i], base64s[i], similarities[i], metadata[i])` built by
the list comprehension at Collection.py 244-248. -/
structure Candidate where
  path : String
  base64 : String
  score : ℚ
  metadata : Metadata
deriving DecidableEq, Repr

/-- The `qresult` object (query_result.py 25-44): `n` stores the
`n_findings` argument, and the four parallel ranked lists. -/
structure qresult where
  n : ℕ
  scores : List ℚ
  files : List String
  base64 : List String
  metadata : List Metadata
deriving DecidableEq, Repr

/-- Python list slicing `l[:n]`: for `n ≥ 0` the first `n` elements; for
`n < 0` all but the last `-n` elements (clamped to the empty list). -/
def pySlice (l : List α) (n : ℤ) : List α :=
  if 0 ≤ n then l.take n.toNat else l.take (l.length - (-n).toNat)

/-- Stable insertion into a descending-by-key list: `x` passes over exactly
the elements whose key is strictly larger, so among equal keys earlier
elements stay first. -/
def insertDesc (f : α → ℚ) (x : α) : List α → List α
  | [] => [x]
  | y :: ys => if f x < f y then y :: insertDesc f x ys else x :: y :: ys

/-- Stable descending sort by key.  This models Python
`list.sort(key=..., reverse=True)` (Collection.py 249): CPython's sort is
documented stable and `reverse=True` keeps equal-key elements in their
original order; any stable descending sort produces the same list, and the
characterization is proved below (`sortDescBy_enum_pairwise`). -/
def sortDescBy (f : α → ℚ) : List α → List α
  | [] => []
  | x :: xs => insertDesc f x (sortDescBy f xs)

/-- The similarity list `[calculate_cosine_similarity(target_vector, vec) for
vec in vectors]` (Collection.py 242), with the float cosine against the fixed
query vector abstracted into `sim`. -/
def similarityList (sim : List ℚ → ℚ) (rows : List StoredImage) : List ℚ :=
  rows.map fun r => sim r.vector

/-- The candidate tuples, one per row (Collection.py 244-246). -/
def candidateList (sim : List ℚ → ℚ) (rows : List StoredImage) : List Candidate :=
  rows.map fun r => ⟨r.image_file_name, r.image_base64, sim r.vector, r.metadata⟩

/-- The `similar_images` comprehension filter (Collection.py 247):
`similarities[i] >= threshold and self._metadata_matches(metadata[i], where)`. -/
def eligibleList (sim : List ℚ → ℚ) (rows : List StoredImage) (threshold : ℚ)
    (w : Option Metadata) : List Candidate :=
  (candidateList sim rows).filter fun c =>
    decide (threshold ≤ c.score) && metadata_matches c.metadata w

/-- `similar_images` after the in-place stable descending sort by score
(Collection.py 249). -/
def rankedList (sim : List ℚ → ℚ) (rows : List StoredImage) (threshold : ℚ)
    (w : Option Metadata) : List Candidate :=
  sortDescBy Candidate.score (eligibleList sim rows threshold w)

/-- `Collection.find_similar_images` (Collection.py 220-261) from the point
where the query vector has been embedded: `sim v` stands for
`calculate_cosine_similarity(target_vector, v)`, `rows` for the table
contents in insertion order.  `n_findings` is computed from the *unfiltered*
similarity list (line 254); the ranked lists come from the filtered, sorted,
sliced `top_similar_images` (lines 251-258). -/
def find_similar_images (sim : List ℚ → ℚ) (rows : List StoredImage)
    (top_N : ℤ) (threshold : ℚ) (w : Option Metadata) : qresult :=
  let top := pySlice (rankedList sim rows threshold w) top_N
  { n := (similarityList sim rows).countP fun s => decide (threshold ≤ s)
    scores := top.map Candidate.score
    files := top.map Candidate.path
    base64 := top.map Candidate.base64
    metadata := top.map Candidate.metadata }

/-- The lexicographic order characterizing a stable descending sort: larger
score first, and among equal scores the smaller original position first. -/
def LexDesc (f : α → ℚ) (idx : α → ℕ) (a b : α) : Prop :=
  f b < f a ∨ (f a = f b ∧ idx a < idx b)

/-! ## Cosine similarity (`Collection.calculate_cosine_similarity`)

The function body (Collection.py 302) is
`np.dot(vector1, vector2) / (np.linalg.norm(vector1) * np.linalg.norm(vector2))`.
It contains no zero-norm check and no exception handling.  Exact square roots
are irrational, so the finite case is kept symbolic: `finite num denSq`
stands for the IEEE value `num / sqrt(denSq)` with `denSq > 0`.  What the
claims need is the observable error behaviour, which numpy defines exactly:
dividing a finite float by `0.0` emits a RuntimeWarning and produces `nan`
(for a `0.0` numerator) or a signed infinity — it never raises a Python
exception. -/

/-- A numpy scalar as far as the zero-norm analysis needs it. -/
inductive NpFloat where
  | nan
  | inf (pos : Bool)
  | finite (num denSq : ℚ)
deriving DecidableEq, Repr

/-- `np.dot` on two equal-length 1-d arrays. -/
def dotProduct (v1 v2 : List ℚ) : ℚ :=
  ((v1.zip v2).map fun p => p.1 * p.2).sum

/-- The square of `np.linalg.norm v` (kept squared to stay rational). -/
def normSq (v : List ℚ) : ℚ :=
  (v.map fun x => x * x).sum

/-- `Collection.calculate_cosine_similarity` (Collection.py 286-302).
`np.dot` raises a ValueError on mismatched shapes; otherwise the division is
performed unconditionally, with numpy float semantics at a zero
denominator. -/
def calculate_cosine_similarity (vector1 vector2 : List ℚ) : Except String NpFloat :=
  if vector1.length ≠ vector2.length then
    Except.error "ValueError: shapes not aligned"
  else
    let num := dotProduct vector1 vector2
    let denSq := normSq vector1 * normSq vector2
    if denSq = 0 then
      if num = 0 then Except.ok NpFloat.nan
      else Except.ok (NpFloat.inf (decide (0 < num)))
    else Except.ok (NpFloat.finite num denSq)

/-! ## Collection creation (`Client.create_collection`, `Collection._create_table`) -/

/-- A constructed Collection: `Collection.__init__` (Collection.py 113-127)
stores the name and connection string as given. -/
structure CollectionHandle where
  name : String
  conn_str : String
deriving DecidableEq, Repr

/-- `Client.create_collection` (Client.py 61-75): returns
`Collection(name, self.conn_str, self.embedding_model)`.  The name is passed
through unchanged; no validation of any kind is performed, so the function is
total. -/
def create_collection (name : String) (conn_str : String) : CollectionHandle :=
  { name := name, conn_str := conn_str }

/-- The SQL text executed by `Collection._create_table` (Collection.py
133-146): the f-string embeds `self.name` verbatim into the statement. -/
def create_table_sql (name : String) : String :=
  "CREATE TABLE IF NOT EXISTS " ++ name ++
    " (id INTEGER PRIMARY KEY, image_base64 TEXT NOT NULL, image_file_name TEXT NOT NULL UNIQUE, vector BLOB NOT NULL, metadata TEXT)"

/-- Modelled from the spec: a simple identifier, the only collection-name
shape the spec permits, is a nonempty string of alphanumerics and
underscores. -/
def isSimpleIdentifier (s : String) : Bool :=
  !s.isEmpty && s.toList.all fun c => c.isAlphanum || c = '_'

/-! ## The remote query path (`server.py`, `HTTPCollection`) -/

/-- Attribute names assigned by `Client.__init__` (Client.py 42-55): only
`embedding_model` and `conn_str` are ever set.  In particular no `conn`
attribute exists (the older `PymvDB` class in database.py has one, which is
what server.py was written against). -/
def clientAttributeNames : List String :=
  ["embedding_model", "conn_str"]

/-- Python attribute lookup on a freshly constructed `Client`: an
AttributeError for any name `__init__` never assigned. -/
def client_getattr (attr : String) : Except String Unit :=
  if clientAttributeNames.contains attr then Except.ok ()
  else Except.error ("AttributeError: Client object has no attribute " ++ attr)

/-- `get_db` in server.py (lines 15-18):
`g.db = Client(embedding_model, persistent_path='db.db3').conn`. -/
def get_db : Except String Unit :=
  client_getattr "conn"

/-- Request body of `POST /find_similar` (server.py 50-57). -/
structure FindSimilarRequest where
  collection : String
  image_base64 : String
  top_N : ℤ
  threshold : ℚ
  w : Option Metadata

/-- The `/find_similar` handler (server.py 50-69): it first obtains the
database handle via `get_db`, then would run the very same local
`Collection.find_similar_images` over the server-side rows and echo its
fields (`n_findings`, `scores`, `files`, `base64`, `metadata`).  `rows`
stands for the server-side stored records of the requested collection and
`sim` for the server-side embedding similarity against the decoded query
image. -/
def find_similar_handler (rows : List StoredImage) (sim : List ℚ → ℚ)
    (req : FindSimilarRequest) : Except String qresult := do
  let _ ← get_db
  pure (find_similar_images sim rows req.top_N req.threshold req.w)

/-! ## Vector serialization (`np.array(v).tobytes()` / `np.frombuffer`)

A float32 element is represented by its 32-bit pattern (a natural number
below `2^32`); byte order is the machine order used consistently by both
`tobytes` and `frombuffer`, taken little-endian here. -/

/-- The four bytes of one float32 element emitted by `tobytes`. -/
def wordToBytes (w : ℕ) : List ℕ :=
  [w % 256, w / 256 % 256, w / 65536 % 256, w / 16777216 % 256]

/-- `np.array(vector).tobytes()` for a float32 `vector` (Collection.py 181). -/
def vec_tobytes (v : List ℕ) : List ℕ :=
  (v.map wordToBytes).flatten

/-- `np.frombuffer(blob, dtype=np.float32)` (Collection.py 216): reads the
buffer back four bytes per element.  (numpy raises when the buffer length is
not a multiple of four; blobs produced by `tobytes` always are.) -/
def np_frombuffer_f32 : List ℕ → List ℕ
  | b0 :: b1 :: b2 :: b3 :: rest =>
    (b0 + 256 * b1 + 65536 * b2 + 16777216 * b3) :: np_frombuffer_f32 rest
  | _ => []

/-! ## Metadata serialization (`json.dumps` / `json.loads`)

`json.dumps` is modelled with its defaults: `ensure_ascii=True` (every
character outside printable ASCII becomes a `\uXXXX` escape, astral
characters a surrogate pair) and item/key separators `", "` and `": "`.
`json.loads` is modelled as a recursive-descent parser for the grammar the
encoder emits on scalar-valued metadata — a single top-level object whose
values are null, booleans, integers or strings — whitespace-tolerant at the
token boundaries as the real parser is.  Delicate characters are written
via `Char.ofNat`: 34 is the double quote, 92 the backslash, 123 and 125 the
braces. -/

/-- One lowercase hexadecimal digit, as `"%04x" % n` produces. -/
def hexDigitChar (d : ℕ) : Char :=
  if d < 10 then Char.ofNat (48 + d) else Char.ofNat (87 + d)

/-- Four hexadecimal digits of a value below `2^16`. -/
def hex4 (n : ℕ) : List Char :=
  [hexDigitChar (n / 4096 % 16), hexDigitChar (n / 256 % 16),
    hexDigitChar (n / 16 % 16), hexDigitChar (n % 16)]

/-- A `\uXXXX` escape. -/
def uEscape (n : ℕ) : List Char :=
  Char.ofNat 92 :: 'u' :: hex4 n

/-- How `json.dumps` (ensure_ascii) renders one string character: `\"` and
`\\`, the five short control escapes, `\u00XX` for the other control
characters, the character itself for printable ASCII, and `\uXXXX` (with a
surrogate pair beyond the basic plane) for everything non-ASCII. -/
def escapeChar (c : Char) : List Char :=
  if c = Char.ofNat 34 then [Char.ofNat 92, Char.ofNat 34]
  else if c = Char.ofNat 92 then [Char.ofNat 92, Char.ofNat 92]
  else if c.toNat = 8 then [Char.ofNat 92, 'b']
  else if c.toNat = 9 then [Char.ofNat 92, 't']
  else if c.toNat = 10 then [Char.ofNat 92, 'n']
  else if c.toNat = 12 then [Char.ofNat 92, 'f']
  else if c.toNat = 13 then [Char.ofNat 92, 'r']
  else if c.toNat < 32 then uEscape c.toNat
  else if c.toNat ≤ 126 then [c]
  else if c.toNat < 65536 then uEscape c.toNat
  else uEscape (55296 + (c.toNat - 65536) / 1024) ++ uEscape (56320 + (c.toNat - 65536) % 1024)

/-- A JSON string literal: quote, escaped body, quote. -/
def encodeString (s : String) : List Char :=
  Char.ofNat 34 :: (s.toList.map escapeChar).flatten ++ [Char.ofNat 34]

/-- Decimal digits of a natural number, least significant first. -/
def natDigitsRev (n : ℕ) : List ℕ :=
  if h : n < 10 then [n] else n % 10 :: natDigitsRev (n / 10)
decreasing_by exact Nat.div_lt_self (by omega) (by omega)

/-- Decimal rendering of a natural number, most significant digit first. -/
def natToDigits (n : ℕ) : List Char :=
  (natDigitsRev n).reverse.map fun d => Char.ofNat (48 + d)

/-- `repr` of a Python int, as `json.dumps` emits it. -/
def encodeInt (n : ℤ) : List Char :=
  if n < 0 then '-' :: natToDigits n.natAbs else natToDigits n.natAbs

/-- One scalar JSON value.  Python `bool` is tested before `int` by the
encoder, so `True`/`False` render as `true`/`false`. -/
def encodeValue : Value → List Char
  | .null => "null".toList
  | .bool true => "true".toList
  | .bool false => "false".toList
  | .int n => encodeInt n
  | .str s => encodeString s

/-- The members of the object, joined with the default `", "` separator and
the `": "` key separator. -/
def encodeMembers : Metadata → List Char
  | [] => []
  | (k, v) :: tl =>
    encodeString k ++ ':' :: ' ' :: encodeValue v ++
      (if tl.isEmpty then [] else [',', ' ']) ++ encodeMembers tl

/-- `json.dumps(metadata)` (Collection.py 182). -/
def json_dumps (m : Metadata) : List Char :=
  Char.ofNat 123 :: encodeMembers m ++ [Char.ofNat 125]

/-- JSON insignificant whitespace. -/
def isJsonWs (c : Char) : Bool :=
  c = ' ' || c.toNat = 9 || c.toNat = 10 || c.toNat = 13

/-- Skip insignificant whitespace. -/
def skipWs (l : List Char) : List Char :=
  l.dropWhile isJsonWs

/-- One hexadecimal digit (either case), as the `\uXXXX` decoder accepts. -/
def parseHexDigit (c : Char) : Option ℕ :=
  if 48 ≤ c.toNat ∧ c.toNat ≤ 57 then some (c.toNat - 48)
  else if 97 ≤ c.toNat ∧ c.toNat ≤ 102 then some (c.toNat - 87)
  else if 65 ≤ c.toNat ∧ c.toNat ≤ 70 then some (c.toNat - 55)
  else none

/-- Four hexadecimal digits and their value. -/
def parseHex4 : List Char → Option (ℕ × List Char)
  | c1 :: c2 :: c3 :: c4 :: rest =>
    match parseHexDigit c1, parseHexDigit c2, parseHexDigit c3, parseHexDigit c4 with
    | some d1, some d2, some d3, some d4 =>
      some (4096 * d1 + 256 * d2 + 16 * d3 + d4, rest)
    | _, _, _, _ => none
  | _ => none

/-- The character denoted by a short escape `\e`. -/
def escCode (e : Char) : Option Char :=
  if e = Char.ofNat 34 then some (Char.ofNat 34)
  else if e = Char.ofNat 92 then some (Char.ofNat 92)
  else if e = '/' then some '/'
  else if e = 'b' then some (Char.ofNat 8)
  else if e = 't' then some (Char.ofNat 9)
  else if e = 'n' then some (Char.ofNat 10)
  else if e = 'f' then some (Char.ofNat 12)
  else if e = 'r' then some (Char.ofNat 13)
  else none

/-- The character denoted by a `\uXXXX` escape, starting after the `\u`:
four hexadecimal digits, and when they form a high surrogate, a second
`\uXXXX` low surrogate to combine with; a lone surrogate is rejected (the
encoder never produces one for well-formed strings). -/
def parseUEscape (l : List Char) : Option (Char × List Char) :=
  match parseHex4 l with
  | none => none
  | some (n, rest3) =>
    if 55296 ≤ n ∧ n < 56320 then
      match rest3 with
      | e2 :: u2 :: rest3b =>
        if e2 = Char.ofNat 92 ∧ u2 = 'u' then
          match parseHex4 rest3b with
          | some (m2, rest4) =>
            if 56320 ≤ m2 ∧ m2 < 57344 then
              some (Char.ofNat (65536 + 1024 * (n - 55296) + (m2 - 56320)), rest4)
            else none
          | none => none
        else none
      | _ => none
    else if 56320 ≤ n ∧ n < 57344 then none
    else some (Char.ofNat n, rest3)

/-- The body of a JSON string literal after the opening quote: plain
characters, short escapes, and `\uXXXX` escapes.  Returns the decoded
characters and the input after the closing quote.  `fuel` bounds the
recursion; one unit per decoded character, so any value beyond the input
length is enough. -/
def parseStringBody : ℕ → List Char → Option (List Char × List Char)
  | 0, _ => none
  | _ + 1, [] => none
  | fuel + 1, c :: rest =>
    if c = Char.ofNat 34 then some ([], rest)
    else if c = Char.ofNat 92 then
      match rest with
      | [] => none
      | e :: rest2 =>
        if e = 'u' then
          match parseUEscape rest2 with
          | some (ch, rest3) => (parseStringBody fuel rest3).map fun p => (ch :: p.1, p.2)
          | none => none
        else
          match escCode e with
          | some ch => (parseStringBody fuel rest2).map fun p => (ch :: p.1, p.2)
          | none => none
    else (parseStringBody fuel rest).map fun p => (c :: p.1, p.2)

/-- Numeric value of a decimal digit character. -/
def digitVal (c : Char) : ℕ :=
  c.toNat - 48

/-- Decimal digit test. -/
def isDigitChar (c : Char) : Bool :=
  48 ≤ c.toNat && c.toNat ≤ 57

/-- The input does not begin with a decimal digit (so a maximal digit run
ending just before it really ends there). -/
def noLeadingDigit : List Char → Prop
  | [] => True
  | c :: _ => isDigitChar c = false

/-- A maximal run of decimal digits and its value. -/
def parseNatToken (l : List Char) : Option (ℕ × List Char) :=
  let ds := l.takeWhile isDigitChar
  if ds.isEmpty then none
  else some (ds.foldl (fun a c => 10 * a + digitVal c) 0, l.dropWhile isDigitChar)

/-- A JSON integer, with optional leading minus sign. -/
def parseIntToken (l : List Char) : Option (ℤ × List Char) :=
  match l with
  | [] => none
  | c :: rest =>
    if c = '-' then
      match parseNatToken rest with
      | some (n, r) => some (-(n : ℤ), r)
      | none => none
    else
      match parseNatToken l with
      | some (n, r) => some ((n : ℤ), r)
      | none => none

/-- One scalar JSON value: string, `true`, `false`, `null`, or integer. -/
def parseValue (l : List Char) : Option (Value × List Char) :=
  match l with
  | [] => none
  | c :: rest =>
    if c = Char.ofNat 34 then
      (parseStringBody (rest.length + 1) rest).map fun p => (Value.str (String.mk p.1), p.2)
    else if c = 't' then
      match rest with
      | r1 :: r2 :: r3 :: rr =>
        if r1 = 'r' ∧ r2 = 'u' ∧ r3 = 'e' then some (Value.bool true, rr) else none
      | _ => none
    else if c = 'f' then
      match rest with
      | r1 :: r2 :: r3 :: r4 :: rr =>
        if r1 = 'a' ∧ r2 = 'l' ∧ r3 = 's' ∧ r4 = 'e' then some (Value.bool false, rr)
        else none
      | _ => none
    else if c = 'n' then
      match rest with
      | r1 :: r2 :: r3 :: rr =>
        if r1 = 'u' ∧ r2 = 'l' ∧ r3 = 'l' then some (Value.null, rr) else none
      | _ => none
    else if c = '-' ∨ isDigitChar c then
      (parseIntToken l).map fun p => (Value.int p.1, p.2)
    else none

/-- The member list of the object, after the opening brace: either an
immediate closing brace, or `"key": value` members separated by commas.
`fuel` bounds the recursion by the input length. -/
def parseMembers : ℕ → List Char → Option (Metadata × List Char)
  | 0, _ => none
  | fuel + 1, l =>
    match skipWs l with
    | [] => none
    | c :: rest =>
      if c = Char.ofNat 125 then some ([], rest)
      else if c = Char.ofNat 34 then
        match parseStringBody (rest.length + 1) rest with
        | none => none
        | some (k, rest1) =>
          match skipWs rest1 with
          | [] => none
          | cc :: rest2 =>
            if cc = ':' then
              match parseValue (skipWs rest2) with
              | none => none
              | some (v, rest3) =>
                match skipWs rest3 with
                | [] => none
                | d :: rest4 =>
                  if d = ',' then
                    match parseMembers fuel rest4 with
                    | some (tl, r) => some ((String.mk k, v) :: tl, r)
                    | none => none
                  else if d = Char.ofNat 125 then some ([(String.mk k, v)], rest4)
                  else none
            else none
      else none

/-- `json.loads(text)` (Collection.py 217) on the metadata grammar: a single
top-level object of scalar values, with nothing but whitespace after it. -/
def json_loads (l : List Char) : Option Metadata :=
  match skipWs l with
  | [] => none
  | c :: rest =>
    if c = Char.ofNat 123 then
      match parseMembers (l.length + 1) rest with
      | some (m, r) => if (skipWs r).isEmpty then some m else none
      | none => none
    else none

/-! ## The SQLite table behind a collection -/

/-- One row of the collection table (Collection.py 137-145): surrogate
`id INTEGER PRIMARY KEY`, the base64 payload, the unique `image_file_name`
identity key, the vector blob, and the metadata JSON text. -/
structure DBRow where
  id : ℕ
  image_base64 : String
  image_file_name : String
  vector_blob : List ℕ
  metadata_json : List Char
deriving DecidableEq, Repr

/-- The next surrogate id sqlite assigns: one past the largest. -/
def nextRowId (table : List DBRow) : ℕ :=
  table.foldr (fun r acc => max r.id acc) 0 + 1

/-- The INSERT executed by `add_image_vector` (Collection.py 186-189):
sqlite raises an IntegrityError when the UNIQUE constraint on
`image_file_name` is violated, otherwise the row is appended. -/
def sqlite_insert (table : List DBRow) (path image_base64 : String)
    (vector_blob : List ℕ) (metadata_json : List Char) : Except String (List DBRow) :=
  if table.any fun r => r.image_file_name == path then
    Except.error "IntegrityError: UNIQUE constraint failed"
  else
    Except.ok (table ++ [DBRow.mk (nextRowId table) image_base64 path vector_blob metadata_json])

/-- `Collection.add_image_vector` (Collection.py 166-191): serializes the
vector and the metadata, attempts the INSERT, and silently absorbs the
IntegrityError (`except sqlite3.IntegrityError: pass`), so the function is
total — a duplicate identity key never raises to the caller. -/
def add_image_vector (table : List DBRow) (path image_base64 : String)
    (vector : List ℕ) (metadata : Metadata) : List DBRow :=
  match sqlite_insert table path image_base64 (vec_tobytes vector) (json_dumps metadata) with
  | .ok t => t
  | .error _ => table

/-- A table reached from the empty table by a sequence of
`add_image_vector` calls, each request carrying
`(path, image_base64, vector, metadata)`. -/
def buildTable (reqs : List (String × String × List ℕ × Metadata)) : List DBRow :=
  reqs.foldl (fun t req => add_image_vector t req.1 req.2.1 req.2.2.1 req.2.2.2) []

/-! ## Properties of the stable descending sort -/

theorem insertDesc_perm (f : α → ℚ) (x : α) (l : List α) :
    (insertDesc f x l).Perm (x :: l) := by
  induction l with
  | nil => simp [insertDesc]
  | cons y ys ih =>
    unfold insertDesc
    split
    · exact ((ih.cons y).trans (List.Perm.swap x y ys))
    · exact List.Perm.refl _

theorem sortDescBy_perm (f : α → ℚ) (l : List α) : (sortDescBy f l).Perm l := by
  induction l with
  | nil => exact List.Perm.refl _
  | cons x xs ih => exact (insertDesc_perm f x (sortDescBy f xs)).trans (ih.cons x)

theorem mem_insertDesc (f : α → ℚ) (x : α) (l : List α) (z : α) :
    z ∈ insertDesc f x l ↔ z = x ∨ z ∈ l := by
  rw [(insertDesc_perm f x l).mem_iff, List.mem_cons]

theorem pairwise_insertDesc (f : α → ℚ) (x : α) (l : List α)
    (h : l.Pairwise fun a b => f b ≤ f a) :
    (insertDesc f x l).Pairwise fun a b => f b ≤ f a := by
  induction l with
  | nil => simp [insertDesc]
  | cons y ys ih =>
    rw [List.pairwise_cons] at h
    obtain ⟨hy, hys⟩ := h
    unfold insertDesc
    split
    · rename_i hlt
      refine List.pairwise_cons.mpr ⟨?_, ih hys⟩
      intro z hz
      rcases (mem_insertDesc f x ys z).mp hz with hzx | hzys
      · exact hzx ▸ le_of_lt hlt
      · exact hy z hzys
    · rename_i hge
      refine List.pairwise_cons.mpr ⟨?_, List.pairwise_cons.mpr ⟨hy, hys⟩⟩
      intro z hz
      rcases List.mem_cons.mp hz with hzy | hzys
      · exact hzy ▸ le_of_not_lt hge
      · exact (hy z hzys).trans (le_of_not_lt hge)

theorem pairwise_sortDescBy (f : α → ℚ) (l : List α) :
    (sortDescBy f l).Pairwise fun a b => f b ≤ f a := by
  induction l with
  | nil => simp [sortDescBy]
  | cons x xs ih => exact pairwise_insertDesc f x _ ih

theorem pairwise_lex_insertDesc (f : α → ℚ) (idx : α → ℕ) (x : α) (l : List α)
    (hl : l.Pairwise (LexDesc f idx)) (hx : ∀ y ∈ l, idx x < idx y) :
    (insertDesc f x l).Pairwise (LexDesc f idx) := by
  induction l with
  | nil => simp [insertDesc]
  | cons y ys ih =>
    rw [List.pairwise_cons] at hl
    obtain ⟨hy, hys⟩ := hl
    unfold insertDesc
    split
    · rename_i hlt
      refine List.pairwise_cons.mpr ⟨?_, ih hys (fun z hz => hx z (List.mem_cons_of_mem y hz))⟩
      intro z hz
      rcases (mem_insertDesc f x ys z).mp hz with hzx | hzys
      · exact hzx ▸ Or.inl hlt
      · exact hy z hzys
    · rename_i hge
      have hyx : f y ≤ f x := le_of_not_lt hge
      refine List.pairwise_cons.mpr ⟨?_, List.pairwise_cons.mpr ⟨hy, hys⟩⟩
      intro z hz
      rcases List.mem_cons.mp hz with hzy | hzys
      · subst hzy
        rcases lt_or_eq_of_le hyx with hlt | heq
        · exact Or.inl hlt
        · exact Or.inr ⟨heq.symm, hx z (List.mem_cons_self z ys)⟩
      · have hz' : f z ≤ f y := by
          rcases hy z hzys with h1 | h1
          · exact le_of_lt h1
          · exact le_of_eq h1.1.symm
        rcases lt_or_eq_of_le (hz'.trans hyx) with hlt | heq
        · exact Or.inl hlt
        · exact Or.inr ⟨heq.symm, hx z (List.mem_cons_of_mem y hzys)⟩

theorem pairwise_lex_sortDescBy (f : α → ℚ) (idx : α → ℕ) (l : List α)
    (h : l.Pairwise fun a b => idx a < idx b) :
    (sortDescBy f l).Pairwise (LexDesc f idx) := by
  induction l with
  | nil => simp [sortDescBy]
  | cons x xs ih =>
    rw [List.pairwise_cons] at h
    obtain ⟨hx, hxs⟩ := h
    refine pairwise_lex_insertDesc f idx x _ (ih hxs) ?_
    intro y hy
    exact hx y ((sortDescBy_perm f xs).mem_iff.mp hy)

theorem insertDesc_map (f : α → ℚ) (g : β → α) (x : β) (l : List β) :
    insertDesc f (g x) (l.map g) = (insertDesc (fun b => f (g b)) x l).map g := by
  induction l with
  | nil => simp [insertDesc]
  | cons y ys ih =>
    simp only [List.map_cons]
    unfold insertDesc
    split
    · simp [ih]
    · simp

theorem sortDescBy_map (f : α → ℚ) (g : β → α) (l : List β) :
    sortDescBy f (l.map g) = (sortDescBy (fun b => f (g b)) l).map g := by
  induction l with
  | nil => simp [sortDescBy]
  | cons x xs ih =>
    simp only [List.map_cons]
    unfold sortDescBy
    rw [ih, insertDesc_map]

theorem mem_enumFrom_le (l : List α) (m : ℕ) (p : ℕ × α) (h : p ∈ l.enumFrom m) :
    m ≤ p.1 := by
  induction l generalizing m with
  | nil => simp [List.enumFrom] at h
  | cons x xs ih =>
    simp only [List.enumFrom, List.mem_cons] at h
    rcases h with h | h
    · exact h ▸ le_refl m
    · exact (Nat.le_succ m).trans (ih (m + 1) h)

theorem pairwise_fst_lt_enumFrom (l : List α) (m : ℕ) :
    (l.enumFrom m).Pairwise fun a b => a.1 < b.1 := by
  induction l generalizing m with
  | nil => simp [List.enumFrom]
  | cons x xs ih =>
    simp only [List.enumFrom]
    refine List.pairwise_cons.mpr ⟨?_, ih (m + 1)⟩
    intro p hp
    exact Nat.lt_of_lt_of_le (Nat.lt_succ_self m) (mem_enumFrom_le xs (m + 1) p hp)

theorem pairwise_fst_lt_enum (l : List α) : l.enum.Pairwise fun a b => a.1 < b.1 :=
  pairwise_fst_lt_enumFrom l 0

/-! ## Helper facts about the query pipeline -/

theorem n_findings_eq (sim : List ℚ → ℚ) (rows : List StoredImage) (top_N : ℤ)
    (threshold : ℚ) (w : Option Metadata) :
    (find_similar_images sim rows top_N threshold w).n
      = rows.countP fun r => decide (threshold ≤ sim r.vector) := by
  simp only [find_similar_images, similarityList, List.countP_map]
  rfl

theorem length_pySlice_le (l : List α) (n : ℤ) : (pySlice l n).length ≤ l.length := by
  unfold pySlice
  split <;> exact (List.take_sublist _ _).length_le

theorem length_eligible_le (sim : List ℚ → ℚ) (rows : List StoredImage)
    (threshold : ℚ) (w : Option Metadata) :
    (eligibleList sim rows threshold w).length
      ≤ rows.countP fun r => decide (threshold ≤ sim r.vector) := by
  unfold eligibleList
  rw [← List.countP_eq_length_filter]
  calc ((candidateList sim rows).countP
          fun c => decide (threshold ≤ c.score) && metadata_matches c.metadata w)
      ≤ (candidateList sim rows).countP fun c => decide (threshold ≤ c.score) :=
        List.countP_mono_left fun x _ h => (Bool.and_eq_true _ _).mp h |>.1
    _ = rows.countP fun r => decide (threshold ≤ sim r.vector) := by
        unfold candidateList
        rw [List.countP_map]
        rfl

theorem length_rankedList (sim : List ℚ → ℚ) (rows : List StoredImage)
    (threshold : ℚ) (w : Option Metadata) :
    (rankedList sim rows threshold w).length = (eligibleList sim rows threshold w).length :=
  (sortDescBy_perm _ _).length_eq

/-! ## Claim theorems: counting (C1), alignment (C10) -/

/-- C1: `total_matches` (`n_findings`) equals the number of stored records
whose similarity is at least the threshold, and it does not depend on the
metadata filter nor on `topN`, even though the ranked lists do. -/
theorem total_matches_counts_threshold_only (sim : List ℚ → ℚ)
    (rows : List StoredImage) (top_N top_N2 : ℤ) (threshold : ℚ)
    (w w2 : Option Metadata) :
    (find_similar_images sim rows top_N threshold w).n
        = (rows.countP fun r => decide (threshold ≤ sim r.vector))
      ∧ (find_similar_images sim rows top_N threshold w).n
        = (find_similar_images sim rows top_N2 threshold w2).n := by
  refine ⟨n_findings_eq sim rows top_N threshold w, ?_⟩
  rw [n_findings_eq, n_findings_eq]

/-- C10: the four ranked lists of a query result have equal lengths, and
`n_findings` bounds that common length from above, for every `topN`,
threshold and filter. -/
theorem result_lists_aligned_and_bounded (sim : List ℚ → ℚ)
    (rows : List StoredImage) (top_N : ℤ) (threshold : ℚ) (w : Option Metadata) :
    (find_similar_images sim rows top_N threshold w).scores.length
        = (find_similar_images sim rows top_N threshold w).files.length
      ∧ (find_similar_images sim rows top_N threshold w).files.length
        = (find_similar_images sim rows top_N threshold w).base64.length
      ∧ (find_similar_images sim rows top_N threshold w).base64.length
        = (find_similar_images sim rows top_N threshold w).metadata.length
      ∧ (find_similar_images sim rows top_N threshold w).scores.length
        ≤ (find_similar_images sim rows top_N threshold w).n := by
  refine ⟨by simp [find_similar_images], by simp [find_similar_images],
    by simp [find_similar_images], ?_⟩
  rw [n_findings_eq]
  show (List.map Candidate.score (pySlice (rankedList sim rows threshold w) top_N)).length ≤ _
  rw [List.length_map]
  exact (length_pySlice_le _ _).trans
    ((length_rankedList sim rows threshold w).le.trans
      (length_eligible_le sim rows threshold w))

/-! ## Claim C2: topN at most zero -/

theorem pySlice_sublist (l : List α) (n : ℤ) : (pySlice l n).Sublist l := by
  unfold pySlice
  split <;> exact List.take_sublist _ _

theorem length_pySlice_nonpos (l : List α) (n : ℤ) (h : n ≤ 0) :
    (pySlice l n).length = if n = 0 then 0 else l.length - n.natAbs := by
  unfold pySlice
  rcases eq_or_lt_of_le h with heq | hlt
  · subst heq
    simp
  · rw [if_neg (not_le.mpr hlt), if_neg (Int.ne_of_lt hlt), List.length_take]
    have habs : (-n).toNat = n.natAbs := by omega
    rw [habs]
    exact min_eq_left (Nat.sub_le _ _)

/-- C2 (counterexample): a query with `topN = -1` over two records that both
satisfy the threshold returns a ranked list with one entry, not an empty one:
Python's `similar_images[:top_N]` with a negative bound drops only the last
`-top_N` elements. -/
theorem negative_topN_nonempty_ranked :
    ((-1 : ℤ) ≤ 0)
      ∧ (find_similar_images (fun v => v.headD 0)
          [⟨"b1", "p1", [1], []⟩, ⟨"b2", "p2", [2], []⟩] (-1) 0 none).scores = [2] := by
  exact ⟨by decide, by decide⟩

/-- C2 (amended): for `topN ≤ 0` the match count is still the full threshold
count, but the ranked lists are empty only for `topN = 0`; for negative
`topN`, Python slice semantics keep all but the last `-topN` eligible
records, so each ranked list has length `eligible - (-topN)` (clamped at
zero). -/
theorem topN_nonpositive_python_slice (sim : List ℚ → ℚ) (rows : List StoredImage)
    (threshold : ℚ) (w : Option Metadata) (n : ℤ) (h : n ≤ 0) :
    (find_similar_images sim rows n threshold w).n
        = (rows.countP fun r => decide (threshold ≤ sim r.vector))
      ∧ (find_similar_images sim rows n threshold w).scores.length
        = (if n = 0 then 0 else (eligibleList sim rows threshold w).length - n.natAbs)
      ∧ (find_similar_images sim rows n threshold w).files.length
        = (if n = 0 then 0 else (eligibleList sim rows threshold w).length - n.natAbs)
      ∧ (find_similar_images sim rows n threshold w).base64.length
        = (if n = 0 then 0 else (eligibleList sim rows threshold w).length - n.natAbs)
      ∧ (find_similar_images sim rows n threshold w).metadata.length
        = (if n = 0 then 0 else (eligibleList sim rows threshold w).length - n.natAbs) := by
  have hlen : (pySlice (rankedList sim rows threshold w) n).length
      = (if n = 0 then 0 else (eligibleList sim rows threshold w).length - n.natAbs) := by
    rw [length_pySlice_nonpos _ _ h, length_rankedList]
  exact ⟨n_findings_eq sim rows n threshold w,
    by simpa [find_similar_images] using hlen,
    by simpa [find_similar_images] using hlen,
    by simpa [find_similar_images] using hlen,
    by simpa [find_similar_images] using hlen⟩

theorem topN_nonpositive_python_slice_witness :
    ((-1 : ℤ) ≤ 0)
      ∧ (find_similar_images (fun v => v.headD 0)
            [⟨"b1", "p1", [1], []⟩, ⟨"b2", "p2", [2], []⟩] (-1) 0 none).scores.length
        = (if (-1 : ℤ) = 0 then 0
            else (eligibleList (fun v => v.headD 0)
              [⟨"b1", "p1", [1], []⟩, ⟨"b2", "p2", [2], []⟩] 0 none).length - (-1 : ℤ).natAbs) :=
  ⟨by decide,
    (topN_nonpositive_python_slice (fun v => v.headD 0)
      [⟨"b1", "p1", [1], []⟩, ⟨"b2", "p2", [2], []⟩] 0 none (-1) (by decide)).2.1⟩

/-! ## Claim C8: the metadata predicate matcher -/

theorem matchesLoop_eq_true_iff (m : Metadata) (l : Metadata) :
    matchesLoop m l = true ↔ ∀ kv ∈ l, pyEq (dictGet m kv.1) kv.2 = true := by
  induction l with
  | nil => simp [matchesLoop]
  | cons kv rest ih =>
    obtain ⟨k, v⟩ := kv
    by_cases hp : pyEq (dictGet m k) v = true
    · simp [matchesLoop, hp, List.forall_mem_cons, ih]
    · simp [matchesLoop, Bool.eq_false_iff.mpr hp, List.forall_mem_cons, hp]

theorem metadata_matches_some_iff (m : Metadata) (w : Metadata) :
    metadata_matches m (some w) = true ↔ ∀ kv ∈ w, pyEq (dictGet m kv.1) kv.2 = true := by
  cases w with
  | nil => simp [metadata_matches]
  | cons kv rest => simpa [metadata_matches] using matchesLoop_eq_true_iff m (kv :: rest)

/-- C8 (counterexample): Python `dict.get` returns `None` for a missing key,
so a filter entry with value `None` matches a record that lacks the key,
where the claim demands `False`. -/
theorem null_filter_matches_missing_key :
    metadata_matches [] (some [("k", Value.null)]) = true := by decide

/-- C8 (amended): absent or empty filters always match; a non-empty filter
matches iff, for every filter entry, Python equality holds between the filter
value and `metadata.get(key)` (whose default for a missing key is `None`) —
so a missing key fails the filter whenever the filter value is not `None`,
but a `None` filter value matches a missing key, and booleans compare equal
to their numeric values; the matcher is a total Boolean function (it never
raises). -/
theorem metadata_matches_python_get_semantics (m : Metadata) (w : Metadata) :
    metadata_matches m none = true
      ∧ metadata_matches m (some []) = true
      ∧ (metadata_matches m (some w) = true
          ↔ ∀ kv ∈ w, pyEq (dictGet m kv.1) kv.2 = true)
      ∧ (∀ k v, (k, v) ∈ w → List.lookup k m = none → v ≠ Value.null →
          metadata_matches m (some w) = false) := by
  refine ⟨rfl, rfl, metadata_matches_some_iff m w, ?_⟩
  intro k v hmem hlook hv
  rw [Bool.eq_false_iff]
  intro htrue
  have hkv := (metadata_matches_some_iff m w).mp htrue (k, v) hmem
  have hget : dictGet m k = Value.null := by
    unfold dictGet
    rw [hlook]
    rfl
  rw [hget] at hkv
  cases v with
  | null => exact hv rfl
  | bool b => simp [pyEq] at hkv
  | int n => simp [pyEq] at hkv
  | str s => simp [pyEq] at hkv

theorem metadata_matches_python_get_semantics_witness :
    metadata_matches [("a", Value.int 1)] (some [("b", Value.int 2)]) = false :=
  (metadata_matches_python_get_semantics [("a", Value.int 1)] [("b", Value.int 2)]).2.2.2
    "b" (Value.int 2) (by decide) (by decide) (by decide)

/-! ## Claim C6: descending order, stability, determinism -/

/-- C6: the ranked result is sorted with scores nonincreasing; the sorted
eligible list is exactly the stable descending rearrangement — a permutation
of the eligible candidates that is pairwise lexicographic (strictly larger
score first, ties broken by strictly smaller original storage position) —
and the query is a pure function of the stored contents, so repeating it
yields an identical result. -/
theorem ranking_sorted_stable_deterministic (sim : List ℚ → ℚ)
    (rows : List StoredImage) (top_N : ℤ) (threshold : ℚ) (w : Option Metadata) :
    (find_similar_images sim rows top_N threshold w).scores.Pairwise (fun a b => b ≤ a)
      ∧ rankedList sim rows threshold w
        = (sortDescBy (fun p => p.2.score) (eligibleList sim rows threshold w).enum).map
            Prod.snd
      ∧ (sortDescBy (fun p => p.2.score) (eligibleList sim rows threshold w).enum).Pairwise
          (LexDesc (fun p => p.2.score) Prod.fst)
      ∧ (sortDescBy (fun p => p.2.score) (eligibleList sim rows threshold w).enum).Perm
          (eligibleList sim rows threshold w).enum
      ∧ find_similar_images sim rows top_N threshold w
        = find_similar_images sim rows top_N threshold w := by
  refine ⟨?_, ?_, ?_, sortDescBy_perm _ _, rfl⟩
  · have h1 := pairwise_sortDescBy Candidate.score (eligibleList sim rows threshold w)
    have h2 : (pySlice (rankedList sim rows threshold w) top_N).Pairwise
        (fun a b => b.score ≤ a.score) :=
      List.Pairwise.sublist (pySlice_sublist _ _) h1
    show (List.map Candidate.score _).Pairwise _
    exact List.pairwise_map.mpr h2
  · conv_lhs => rw [rankedList, ← List.enum_map_snd (eligibleList sim rows threshold w)]
    exact sortDescBy_map Candidate.score Prod.snd _
  · exact pairwise_lex_sortDescBy _ Prod.fst _ (pairwise_fst_lt_enum _)

/-! ## Claim C3: zero-norm vectors -/

theorem normSq_replicate_zero (n : ℕ) : normSq (List.replicate n 0) = 0 := by
  simp [normSq, List.map_replicate]

theorem dotProduct_replicate_zero (v : List ℚ) :
    dotProduct (List.replicate v.length 0) v = 0 := by
  induction v with
  | nil => rfl
  | cons x xs ih =>
    show dotProduct (List.replicate (xs.length + 1) 0) (x :: xs) = 0
    rw [List.replicate_succ]
    simpa [dotProduct] using ih

/-- C3 (code bug eval): querying or scoring with an all-zero vector raises
nothing: `calculate_cosine_similarity` has no zero-norm check, so the
division happens with a zero denominator and a zero numerator, which numpy
turns into `nan` (with a RuntimeWarning, not an exception).  The caller gets
a silent NaN score, not the ValidationError the claim requires. -/
theorem zero_vector_similarity_is_nan_not_error (v : List ℚ) :
    calculate_cosine_similarity (List.replicate v.length 0) v = Except.ok NpFloat.nan := by
  unfold calculate_cosine_similarity
  simp [dotProduct_replicate_zero, normSq_replicate_zero]

/-! ## Claim C4: collection names are not validated -/

/-- C4 (code bug eval): neither `Client.create_collection` nor
`Collection._create_table` validates the collection name — the constructor
accepts any string and the CREATE TABLE statement embeds it verbatim, as
evaluated here on a name carrying an SQL injection, which the spec requires
to be rejected with an error. -/
theorem collection_name_not_validated :
    isSimpleIdentifier "animals; DROP TABLE users; --" = false
      ∧ create_collection "animals; DROP TABLE users; --" ":memory:"
        = CollectionHandle.mk "animals; DROP TABLE users; --" ":memory:"
      ∧ create_table_sql "animals; DROP TABLE users; --"
        = "CREATE TABLE IF NOT EXISTS animals; DROP TABLE users; -- (id INTEGER PRIMARY KEY, image_base64 TEXT NOT NULL, image_file_name TEXT NOT NULL UNIQUE, vector BLOB NOT NULL, metadata TEXT)" :=
  ⟨by decide, rfl, rfl⟩

/-! ## Claim C5: the remote query path -/

/-- C5 (code bug eval): every `/find_similar` request fails before reaching
the query code, because `get_db` reads the `conn` attribute that
`Client.__init__` never assigns (it assigns `conn_str`); the handler
therefore never returns the local query result, so remote/local parity
cannot hold for any stored contents. -/
theorem remote_find_similar_always_fails (rows : List StoredImage)
    (sim : List ℚ → ℚ) (req : FindSimilarRequest) :
    find_similar_handler rows sim req
      = Except.error "AttributeError: Client object has no attribute conn" := rfl

/-! ## Claim C7: duplicate inserts -/

theorem add_image_vector_duplicate (table : List DBRow) (path image_base64 : String)
    (vector : List ℕ) (metadata : Metadata)
    (h : (table.any fun r => r.image_file_name == path) = true) :
    add_image_vector table path image_base64 vector metadata = table := by
  unfold add_image_vector sqlite_insert
  rw [if_pos h]

theorem countP_add_image_vector (t : List DBRow) (p b64 : String)
    (vec : List ℕ) (md : Metadata) (k : String)
    (hinv : (t.countP fun r => r.image_file_name == k) ≤ 1) :
    ((add_image_vector t p b64 vec md).countP fun r => r.image_file_name == k) ≤ 1 := by
  unfold add_image_vector sqlite_insert
  by_cases hdup : (t.any fun r => r.image_file_name == p) = true
  · rw [if_pos hdup]
    exact hinv
  · rw [if_neg hdup]
    show ((t ++ [DBRow.mk (nextRowId t) b64 p (vec_tobytes vec) (json_dumps md)]).countP
        fun r => r.image_file_name == k) ≤ 1
    rw [List.countP_append]
    by_cases hpk : p = k
    · subst hpk
      have hz : (t.countP fun r => r.image_file_name == p) = 0 := by
        rw [List.countP_eq_zero]
        intro r hr
        have hall := List.any_eq_false.mp (Bool.eq_false_iff.mpr hdup) r hr
        simpa using hall
      rw [hz]
      simp
    · have hrow : ((DBRow.mk (nextRowId t) b64 p (vec_tobytes vec)
          (json_dumps md)).image_file_name == k) = false := by
        simpa using hpk
      simpa [List.countP_cons, hrow] using hinv

theorem countP_buildTable_le (reqs : List (String × String × List ℕ × Metadata))
    (k : String) :
    ((buildTable reqs).countP fun r => r.image_file_name == k) ≤ 1 := by
  unfold buildTable
  suffices h : ∀ t : List DBRow, (t.countP fun r => r.image_file_name == k) ≤ 1 →
      ((reqs.foldl (fun t req => add_image_vector t req.1 req.2.1 req.2.2.1 req.2.2.2)
        t).countP fun r => r.image_file_name == k) ≤ 1 by
    exact h [] (by simp)
  induction reqs with
  | nil => exact fun t ht => ht
  | cons r rs ih =>
    intro t ht
    exact ih _ (countP_add_image_vector t r.1 r.2.1 r.2.2.1 r.2.2.2 k ht)

/-- C7: inserting a record whose `image_file_name` identity key already
exists leaves the table exactly unchanged and raises nothing
(`add_image_vector` is total: the IntegrityError is caught and absorbed),
and every table built by inserts holds at most one record per identity key —
so after the duplicate insert exactly one record for that key remains. -/
theorem duplicate_insert_is_silent_noop (table : List DBRow) (path image_base64 : String)
    (vector : List ℕ) (metadata : Metadata)
    (h : (table.any fun r => r.image_file_name == path) = true) :
    add_image_vector table path image_base64 vector metadata = table
      ∧ ∀ (reqs : List (String × String × List ℕ × Metadata)) (k : String),
          ((buildTable reqs).countP fun r => r.image_file_name == k) ≤ 1 :=
  ⟨add_image_vector_duplicate table path image_base64 vector metadata h,
    fun reqs k => countP_buildTable_le reqs k⟩

theorem duplicate_insert_is_silent_noop_witness :
    (([DBRow.mk 1 "payload" "cat.png" [] []].any
        fun r => r.image_file_name == "cat.png") = true)
      ∧ add_image_vector [DBRow.mk 1 "payload" "cat.png" [] []] "cat.png" "payload2"
          [7] [("x", Value.int 1)] = [DBRow.mk 1 "payload" "cat.png" [] []] :=
  ⟨by decide,
    (duplicate_insert_is_silent_noop [DBRow.mk 1 "payload" "cat.png" [] []]
      "cat.png" "payload2" [7] [("x", Value.int 1)] (by decide)).1⟩

/-! ## Claim C9: exact serialization round trips -/

theorem char_toNat_ranges (c : Char) :
    c.toNat < 55296 ∨ (57343 < c.toNat ∧ c.toNat < 1114112) := c.valid

theorem toNat_ofNat_valid (n : ℕ) (h : n.isValidChar) : (Char.ofNat n).toNat = n := by
  simp [Char.ofNat, h]
  rfl

theorem parseHexDigit_hexDigitChar (d : ℕ) (h : d < 16) :
    parseHexDigit (hexDigitChar d) = some d := by
  interval_cases d <;> decide

theorem parseHex4_hex4 (n : ℕ) (h : n < 65536) (rest : List Char) :
    parseHex4 (hex4 n ++ rest) = some (n, rest) := by
  have h1 : n / 4096 % 16 < 16 := Nat.mod_lt _ (by norm_num)
  have h2 : n / 256 % 16 < 16 := Nat.mod_lt _ (by norm_num)
  have h3 : n / 16 % 16 < 16 := Nat.mod_lt _ (by norm_num)
  have h4 : n % 16 < 16 := Nat.mod_lt _ (by norm_num)
  have hrec : 4096 * (n / 4096 % 16) + 256 * (n / 256 % 16) + 16 * (n / 16 % 16) + n % 16
      = n := by omega
  simp only [hex4, List.cons_append, List.nil_append, parseHex4,
    parseHexDigit_hexDigitChar _ h1, parseHexDigit_hexDigitChar _ h2,
    parseHexDigit_hexDigitChar _ h3, parseHexDigit_hexDigitChar _ h4, hrec]

theorem parseUEscape_bmp (n : ℕ) (hn : n < 65536) (hns : ¬(55296 ≤ n ∧ n < 57344))
    (rest : List Char) :
    parseUEscape (hex4 n ++ rest) = some (Char.ofNat n, rest) := by
  unfold parseUEscape
  simp only [parseHex4_hex4 n hn rest]
  rw [if_neg (by omega), if_neg (by omega)]

theorem parseUEscape_surrogate_pair (hi lo : ℕ) (hhi1 : 55296 ≤ hi) (hhi2 : hi < 56320)
    (hlo1 : 56320 ≤ lo) (hlo2 : lo < 57344) (rest : List Char) :
    parseUEscape (hex4 hi ++ (Char.ofNat 92 :: 'u' :: (hex4 lo ++ rest)))
      = some (Char.ofNat (65536 + 1024 * (hi - 55296) + (lo - 56320)), rest) := by
  unfold parseUEscape
  simp only [parseHex4_hex4 hi (by omega)]
  rw [if_pos (by omega)]
  rw [if_pos (show True ∧ True from ⟨trivial, trivial⟩)]
  simp only [parseHex4_hex4 lo (by omega)]
  rw [if_pos (by omega)]
theorem psb_quote (fuel : ℕ) (rest : List Char) :
    parseStringBody (fuel + 1) (Char.ofNat 34 :: rest) = some ([], rest) := rfl

theorem psb_u (fuel : ℕ) (rest2 : List Char) (ch : Char) (rest3 : List Char)
    (hu : parseUEscape rest2 = some (ch, rest3)) :
    parseStringBody (fuel + 1) (Char.ofNat 92 :: 'u' :: rest2)
      = (parseStringBody fuel rest3).map fun p => (ch :: p.1, p.2) := by
  conv_lhs => unfold parseStringBody
  rw [if_neg (by decide), if_pos rfl]
  simp only [hu, if_true]

theorem psb_plain (fuel : ℕ) (c : Char) (rest : List Char) (h34 : ¬(c = Char.ofNat 34))
    (h92 : ¬(c = Char.ofNat 92)) :
    parseStringBody (fuel + 1) (c :: rest)
      = (parseStringBody fuel rest).map fun p => (c :: p.1, p.2) := by
  conv_lhs => unfold parseStringBody
  rw [if_neg h34, if_neg h92]

theorem psb_escape (fuel : ℕ) (e ch : Char) (rest2 : List Char) (he : escCode e = some ch)
    (heu : ¬(e = 'u')) :
    parseStringBody (fuel + 1) (Char.ofNat 92 :: e :: rest2)
      = (parseStringBody fuel rest2).map fun p => (ch :: p.1, p.2) := by
  conv_lhs => unfold parseStringBody
  rw [if_neg (by decide), if_pos rfl]
  simp only [he, if_neg heu]

theorem escapeChar_of_short (c : Char) (k : ℕ) (e : Char)
    (hc : c = Char.ofNat k) (hesc : escapeChar (Char.ofNat k) = [Char.ofNat 92, e])
    (hcode : escCode e = some (Char.ofNat k)) (heu : ¬(e = 'u'))
    (fuel : ℕ) (t : List Char) (p : List Char × List Char)
    (h : parseStringBody fuel t = some p) :
    parseStringBody (fuel + 1) (escapeChar c ++ t) = some (c :: p.1, p.2) := by
  subst hc
  rw [hesc, List.cons_append, List.cons_append, List.nil_append,
    psb_escape fuel e (Char.ofNat k) t hcode heu, h]
  rfl

theorem psb_escapeChar (fuel : ℕ) (c : Char) (t : List Char) (p : List Char × List Char)
    (h : parseStringBody fuel t = some p) :
    parseStringBody (fuel + 1) (escapeChar c ++ t) = some (c :: p.1, p.2) := by
  by_cases h34 : c = Char.ofNat 34
  · exact escapeChar_of_short c 34 (Char.ofNat 34) h34 rfl rfl (by decide) fuel t p h
  by_cases h92 : c = Char.ofNat 92
  · exact escapeChar_of_short c 92 (Char.ofNat 92) h92 rfl rfl (by decide) fuel t p h
  by_cases h8 : c.toNat = 8
  · exact escapeChar_of_short c 8 'b' (by rw [← h8, Char.ofNat_toNat]) rfl rfl (by decide)
      fuel t p h
  by_cases h9 : c.toNat = 9
  · exact escapeChar_of_short c 9 't' (by rw [← h9, Char.ofNat_toNat]) rfl rfl (by decide)
      fuel t p h
  by_cases h10 : c.toNat = 10
  · exact escapeChar_of_short c 10 'n' (by rw [← h10, Char.ofNat_toNat]) rfl rfl (by decide)
      fuel t p h
  by_cases h12 : c.toNat = 12
  · exact escapeChar_of_short c 12 'f' (by rw [← h12, Char.ofNat_toNat]) rfl rfl (by decide)
      fuel t p h
  by_cases h13 : c.toNat = 13
  · exact escapeChar_of_short c 13 'r' (by rw [← h13, Char.ofNat_toNat]) rfl rfl (by decide)
      fuel t p h
  have hesc8 : ¬(c = Char.ofNat 8) := fun he => h8 (by rw [he]; rfl)
  have hesc9 : ¬(c = Char.ofNat 9) := fun he => h9 (by rw [he]; rfl)
  have hesc10 : ¬(c = Char.ofNat 10) := fun he => h10 (by rw [he]; rfl)
  have hesc12 : ¬(c = Char.ofNat 12) := fun he => h12 (by rw [he]; rfl)
  have hesc13 : ¬(c = Char.ofNat 13) := fun he => h13 (by rw [he]; rfl)
  by_cases hctl : c.toNat < 32
  · have hval : ¬(55296 ≤ c.toNat ∧ c.toNat < 57344) := by omega
    rw [show escapeChar c = uEscape c.toNat by
      unfold escapeChar
      rw [if_neg h34, if_neg h92, if_neg h8, if_neg h9, if_neg h10, if_neg h12, if_neg h13,
        if_pos hctl]]
    unfold uEscape
    rw [List.cons_append, List.cons_append,
      psb_u fuel _ _ _ (parseUEscape_bmp c.toNat (by omega) hval t), Char.ofNat_toNat, h]
    rfl
  by_cases hprint : c.toNat ≤ 126
  · rw [show escapeChar c = [c] by
      unfold escapeChar
      rw [if_neg h34, if_neg h92, if_neg h8, if_neg h9, if_neg h10, if_neg h12, if_neg h13,
        if_neg hctl, if_pos hprint]]
    rw [List.cons_append, List.nil_append, psb_plain fuel c t h34 h92, h]
    rfl
  by_cases hbmp : c.toNat < 65536
  · have hval : ¬(55296 ≤ c.toNat ∧ c.toNat < 57344) := by
      rcases char_toNat_ranges c with hr | hr
      · omega
      · omega
    rw [show escapeChar c = uEscape c.toNat by
      unfold escapeChar
      rw [if_neg h34, if_neg h92, if_neg h8, if_neg h9, if_neg h10, if_neg h12, if_neg h13,
        if_neg hctl, if_neg (by omega), if_pos hbmp]]
    unfold uEscape
    rw [List.cons_append, List.cons_append,
      psb_u fuel _ _ _ (parseUEscape_bmp c.toNat hbmp hval t), Char.ofNat_toNat, h]
    rfl
  · have hlt : c.toNat < 1114112 := by
      rcases char_toNat_ranges c with hr | hr
      · omega
      · omega
    have hmod := Nat.mod_lt (c.toNat - 65536) (show 0 < 1024 by norm_num)
    rw [show escapeChar c
        = uEscape (55296 + (c.toNat - 65536) / 1024) ++ uEscape (56320 + (c.toNat - 65536) % 1024) by
      unfold escapeChar
      rw [if_neg h34, if_neg h92, if_neg h8, if_neg h9, if_neg h10, if_neg h12, if_neg h13,
        if_neg hctl, if_neg (by omega), if_neg (by omega)]]
    unfold uEscape
    simp only [List.cons_append, List.append_assoc]
    rw [psb_u fuel _ _ _ (parseUEscape_surrogate_pair (55296 + (c.toNat - 65536) / 1024)
      (56320 + (c.toNat - 65536) % 1024) (by omega) (by omega) (by omega) (by omega) t)]
    have hcomb : 65536 + 1024 * (55296 + (c.toNat - 65536) / 1024 - 55296)
        + (56320 + (c.toNat - 65536) % 1024 - 56320) = c.toNat := by omega
    rw [hcomb, Char.ofNat_toNat, h]
    rfl
theorem psb_roundtrip (s : List Char) : ∀ (fuel : ℕ) (rest : List Char), s.length < fuel →
    parseStringBody fuel ((s.map escapeChar).flatten ++ Char.ofNat 34 :: rest)
      = some (s, rest) := by
  induction s with
  | nil =>
    intro fuel rest hf
    cases fuel with
    | zero => exact (Nat.not_lt_zero _ hf).elim
    | succ f => exact psb_quote f rest
  | cons c cs ih =>
    intro fuel rest hf
    cases fuel with
    | zero => exact (Nat.not_lt_zero _ hf).elim
    | succ f =>
      have hih := ih f rest (by simp only [List.length_cons] at hf; omega)
      simp only [List.map_cons, List.flatten_cons, List.append_assoc]
      exact psb_escapeChar f c _ (cs, rest) hih

set_option maxHeartbeats 1000000 in
theorem escapeChar_length_pos (c : Char) : 1 ≤ (escapeChar c).length := by
  unfold escapeChar
  split_ifs <;> simp [uEscape, hex4]

theorem length_le_escaped (s : List Char) :
    s.length ≤ ((s.map escapeChar).flatten).length := by
  induction s with
  | nil => simp
  | cons c cs ih =>
    simp only [List.map_cons, List.flatten_cons, List.length_append, List.length_cons]
    have hne := escapeChar_length_pos c
    omega

theorem natDigitsRev_lt (n : ℕ) : ∀ d ∈ natDigitsRev n, d < 10 := by
  induction n using Nat.strong_induction_on with
  | _ n ih =>
    rw [natDigitsRev]
    split
    · rename_i h
      intro d hd
      simp only [List.mem_singleton] at hd
      omega
    · rename_i h
      intro d hd
      rcases List.mem_cons.mp hd with hd1 | hd2
      · subst hd1
        exact Nat.mod_lt _ (by omega)
      · exact ih (n / 10) (Nat.div_lt_self (by omega) (by norm_num)) d hd2

theorem foldr_natDigitsRev (n : ℕ) :
    (natDigitsRev n).foldr (fun d a => 10 * a + d) 0 = n := by
  induction n using Nat.strong_induction_on with
  | _ n ih =>
    rw [natDigitsRev]
    split
    · rename_i h
      simp
    · rename_i h
      simp only [List.foldr_cons, ih (n / 10) (Nat.div_lt_self (by omega) (by norm_num))]
      omega
theorem digitVal_ofNat (d : ℕ) (h : d < 10) : digitVal (Char.ofNat (48 + d)) = d := by
  unfold digitVal
  rw [toNat_ofNat_valid _ (Or.inl (by omega))]
  omega

theorem natToDigits_all_digit (n : ℕ) : ∀ c ∈ natToDigits n, isDigitChar c = true := by
  unfold natToDigits
  intro c hc
  simp only [List.mem_map, List.mem_reverse] at hc
  obtain ⟨d, hd, rfl⟩ := hc
  have hdlt := natDigitsRev_lt n d hd
  have hv : (Char.ofNat (48 + d)).toNat = 48 + d := toNat_ofNat_valid _ (Or.inl (by omega))
  simp only [isDigitChar, hv, Bool.and_eq_true, decide_eq_true_eq]
  omega

theorem natToDigits_ne_nil (n : ℕ) : natToDigits n ≠ [] := by
  unfold natToDigits
  simp only [ne_eq, List.map_eq_nil_iff, List.reverse_eq_nil_iff]
  rw [natDigitsRev]
  split <;> simp

theorem takeWhile_digits_append (ds rest : List Char)
    (hds : ∀ c ∈ ds, isDigitChar c = true) (hrest : noLeadingDigit rest) :
    (ds ++ rest).takeWhile isDigitChar = ds
      ∧ (ds ++ rest).dropWhile isDigitChar = rest := by
  induction ds with
  | nil =>
    simp only [List.nil_append]
    cases rest with
    | nil => simp
    | cons c t =>
      have hc : isDigitChar c = false := hrest
      simp [List.takeWhile_cons, List.dropWhile_cons, hc]
  | cons c cs ih =>
    have hc := hds c (List.mem_cons_self c cs)
    obtain ⟨h1, h2⟩ := ih fun x hx => hds x (List.mem_cons_of_mem c hx)
    simp [List.takeWhile_cons, List.dropWhile_cons, hc, h1, h2]

theorem foldr_digit_chars (l : List ℕ) (h : ∀ d ∈ l, d < 10) :
    l.foldr (fun d a => 10 * a + digitVal (Char.ofNat (48 + d))) 0
      = l.foldr (fun d a => 10 * a + d) 0 := by
  induction l with
  | nil => rfl
  | cons d ds ih =>
    simp only [List.foldr_cons, ih fun x hx => h x (List.mem_cons_of_mem d hx),
      digitVal_ofNat d (h d (List.mem_cons_self d ds))]

theorem foldl_natToDigits (n : ℕ) :
    (natToDigits n).foldl (fun a c => 10 * a + digitVal c) 0 = n := by
  unfold natToDigits
  rw [List.map_reverse, List.foldl_reverse, List.foldr_map]
  rw [foldr_digit_chars _ (natDigitsRev_lt n)]
  exact foldr_natDigitsRev n

theorem parseNatToken_natToDigits (n : ℕ) (rest : List Char) (h : noLeadingDigit rest) :
    parseNatToken (natToDigits n ++ rest) = some (n, rest) := by
  obtain ⟨ht, hd⟩ := takeWhile_digits_append (natToDigits n) rest (natToDigits_all_digit n) h
  have hne : (natToDigits n).isEmpty = false := by
    cases hnil : natToDigits n with
    | nil => exact absurd hnil (natToDigits_ne_nil n)
    | cons a b => rfl
  simp only [parseNatToken, ht, hd, hne, Bool.false_eq_true, if_false,
    foldl_natToDigits n]

theorem parseIntToken_encodeInt (n : ℤ) (rest : List Char) (h : noLeadingDigit rest) :
    parseIntToken (encodeInt n ++ rest) = some (n, rest) := by
  unfold encodeInt
  by_cases hn : n < 0
  · rw [if_pos hn, List.cons_append]
    simp only [parseIntToken]
    rw [if_pos trivial]
    simp only [parseNatToken_natToDigits n.natAbs rest h]
    have habs : -(n.natAbs : ℤ) = n := by omega
    rw [habs]
  · rw [if_neg hn]
    cases hnd : natToDigits n.natAbs with
    | nil => exact absurd hnd (natToDigits_ne_nil _)
    | cons c0 t0 =>
      have hdig : isDigitChar c0 = true :=
        natToDigits_all_digit _ c0 (by rw [hnd]; exact List.mem_cons_self _ _)
      have hc0 : ¬(c0 = '-') := by
        intro he
        rw [he] at hdig
        exact absurd hdig (by decide)
      have hpn := parseNatToken_natToDigits n.natAbs rest h
      rw [hnd] at hpn
      rw [List.cons_append] at hpn ⊢
      simp only [parseIntToken]
      rw [if_neg hc0]
      simp only [hpn]
      have habs : ((n.natAbs : ℤ)) = n := by omega
      rw [habs]
theorem string_mk_toList (s : String) : String.mk s.toList = s := rfl

theorem parseValue_encodeValue (v : Value) (rest : List Char) (h : noLeadingDigit rest) :
    parseValue (encodeValue v ++ rest) = some (v, rest) := by
  cases v with
  | null => rfl
  | bool b => cases b <;> rfl
  | int n =>
    show parseValue (encodeInt n ++ rest) = some (Value.int n, rest)
    by_cases hn : n < 0
    · have hneg : encodeInt n = '-' :: natToDigits n.natAbs := by
        unfold encodeInt
        rw [if_pos hn]
      rw [hneg, List.cons_append]
      simp only [parseValue]
      rw [if_neg (by decide), if_neg (by decide), if_neg (by decide), if_neg (by decide),
        if_pos (Or.inl trivial)]
      rw [← List.cons_append, ← hneg]
      simp only [parseIntToken_encodeInt n rest h]
      rfl
    · have hpos : encodeInt n = natToDigits n.natAbs := by
        unfold encodeInt
        rw [if_neg hn]
      cases hnd : natToDigits n.natAbs with
      | nil => exact absurd hnd (natToDigits_ne_nil _)
      | cons c0 t0 =>
        have hdig : isDigitChar c0 = true :=
          natToDigits_all_digit _ c0 (by rw [hnd]; exact List.mem_cons_self _ _)
        have htn : 48 ≤ c0.toNat ∧ c0.toNat ≤ 57 := by
          simpa [isDigitChar, Bool.and_eq_true, decide_eq_true_eq] using hdig
        have hq : ¬(c0 = Char.ofNat 34) := by
          intro he
          rw [he] at htn
          exact absurd htn (by decide)
        have ht' : ¬(c0 = 't') := by
          intro he
          rw [he] at htn
          exact absurd htn (by decide)
        have hf' : ¬(c0 = 'f') := by
          intro he
          rw [he] at htn
          exact absurd htn (by decide)
        have hn' : ¬(c0 = 'n') := by
          intro he
          rw [he] at htn
          exact absurd htn (by decide)
        have hpi := parseIntToken_encodeInt n rest h
        rw [hpos, hnd, List.cons_append] at hpi ⊢
        simp only [parseValue]
        rw [if_neg hq, if_neg ht', if_neg hf', if_neg hn', if_pos (Or.inr hdig)]
        simp only [hpi]
        rfl
  | str s =>
    show parseValue ((Char.ofNat 34 :: ((s.toList.map escapeChar).flatten ++ [Char.ofNat 34]))
        ++ rest) = some (Value.str s, rest)
    rw [List.cons_append, List.append_assoc, List.singleton_append]
    simp only [parseValue]
    rw [if_pos trivial]
    have hfuel : s.toList.length <
        ((s.toList.map escapeChar).flatten ++ Char.ofNat 34 :: rest).length + 1 := by
      have := length_le_escaped s.toList
      simp only [List.length_append, List.length_cons]
      omega
    simp only [psb_roundtrip s.toList _ rest hfuel]
    rfl
theorem skipWs_cons_not_ws (c : Char) (h : isJsonWs c = false) (l : List Char) :
    skipWs (c :: l) = c :: l := by
  simp [skipWs, List.dropWhile_cons, h]

theorem skipWs_cons_space (l : List Char) : skipWs (' ' :: l) = skipWs l := by
  have h : isJsonWs ' ' = true := rfl
  simp [skipWs, List.dropWhile_cons, h]

theorem isJsonWs_digit_head (c : Char) (h : 48 ≤ c.toNat ∧ c.toNat ≤ 57) :
    isJsonWs c = false := by
  have hne : ¬(c = ' ') := by
    intro he
    rw [he] at h
    exact absurd h (by decide)
  simp only [isJsonWs, Bool.or_eq_false_iff, decide_eq_false_iff_not]
  refine ⟨⟨⟨hne, ?_⟩, ?_⟩, ?_⟩ <;> omega

theorem skipWs_encodeValue (v : Value) (X : List Char) :
    skipWs (encodeValue v ++ X) = encodeValue v ++ X := by
  cases v with
  | null => rfl
  | bool b => cases b <;> rfl
  | str s => rfl
  | int n =>
    show skipWs (encodeInt n ++ X) = encodeInt n ++ X
    by_cases hn : n < 0
    · have hneg : encodeInt n = '-' :: natToDigits n.natAbs := by
        unfold encodeInt
        rw [if_pos hn]
      rw [hneg, List.cons_append, skipWs_cons_not_ws '-' (by decide)]
    · have hpos : encodeInt n = natToDigits n.natAbs := by
        unfold encodeInt
        rw [if_neg hn]
      cases hnd : natToDigits n.natAbs with
      | nil => exact absurd hnd (natToDigits_ne_nil _)
      | cons c0 t0 =>
        have hdig : isDigitChar c0 = true :=
          natToDigits_all_digit _ c0 (by rw [hnd]; exact List.mem_cons_self _ _)
        have htn : 48 ≤ c0.toNat ∧ c0.toNat ≤ 57 := by
          simpa [isDigitChar, Bool.and_eq_true, decide_eq_true_eq] using hdig
        rw [hpos, hnd, List.cons_append, skipWs_cons_not_ws c0 (isJsonWs_digit_head c0 htn)]

theorem parseMembers_space (f : ℕ) (hf : 0 < f) (l : List Char) :
    parseMembers f (' ' :: l) = parseMembers f l := by
  cases f with
  | zero => exact (Nat.not_lt_zero _ hf).elim
  | succ f2 =>
    simp only [parseMembers]
    rw [skipWs_cons_space]
theorem parseMembers_encodeMembers (m : Metadata) : ∀ (fuel : ℕ) (rest : List Char),
    m.length < fuel →
    parseMembers fuel (encodeMembers m ++ Char.ofNat 125 :: rest) = some (m, rest) := by
  induction m with
  | nil =>
    intro fuel rest hf
    cases fuel with
    | zero => exact (Nat.not_lt_zero _ hf).elim
    | succ f => rfl
  | cons kv tl ih =>
    obtain ⟨k, v⟩ := kv
    intro fuel rest hf
    cases fuel with
    | zero => exact (Nat.not_lt_zero _ hf).elim
    | succ f =>
      have hfl : tl.length < f := by
        simp only [List.length_cons] at hf
        omega
      have hfpos : 0 < f := by omega
      have hqTrue : (Char.ofNat 34 = Char.ofNat 34) = True := eq_true rfl
      have hqClose : (Char.ofNat 34 = Char.ofNat 125) = False := eq_false (by decide)
      have hColon : (':' = ':') = True := eq_true rfl
      cases tl with
      | nil =>
        have e1 : encodeMembers [(k, v)] = encodeString k ++ ':' :: ' ' :: encodeValue v := by
          simp [encodeMembers]
        rw [e1, show encodeString k
          = Char.ofNat 34 :: ((k.toList.map escapeChar).flatten ++ [Char.ofNat 34]) from rfl]
        simp only [List.cons_append, List.append_assoc, List.singleton_append, List.nil_append]
        simp only [parseMembers, skipWs_cons_not_ws (Char.ofNat 34) (by decide)]
        simp only [hqClose, if_false, hqTrue, if_true]
        have hk := psb_roundtrip k.toList
          (((k.toList.map escapeChar).flatten
            ++ Char.ofNat 34 :: (':' :: ' ' :: (encodeValue v ++ Char.ofNat 125 :: rest))).length
              + 1)
          (':' :: ' ' :: (encodeValue v ++ Char.ofNat 125 :: rest))
          (by
            have := length_le_escaped k.toList
            simp only [List.length_append, List.length_cons]
            omega)
        simp only [hk]
        simp only [skipWs_cons_not_ws ':' (by decide), hColon, if_true]
        simp only [skipWs_cons_space, skipWs_encodeValue]
        simp only [parseValue_encodeValue v (Char.ofNat 125 :: rest)
          (show isDigitChar (Char.ofNat 125) = false by decide)]
        simp only [skipWs_cons_not_ws (Char.ofNat 125) (by decide)]
        have hc1 : (Char.ofNat 125 = ',') = False := eq_false (by decide)
        have hc2 : (Char.ofNat 125 = Char.ofNat 125) = True := eq_true rfl
        simp only [hc1, if_false, hc2, if_true, string_mk_toList]
      | cons p ps =>
        have e1 : encodeMembers ((k, v) :: p :: ps)
            = encodeString k ++ ':' :: ' ' :: encodeValue v
              ++ ',' :: ' ' :: encodeMembers (p :: ps) := by
          simp [encodeMembers]
        rw [e1, show encodeString k
          = Char.ofNat 34 :: ((k.toList.map escapeChar).flatten ++ [Char.ofNat 34]) from rfl]
        simp only [List.cons_append, List.append_assoc, List.singleton_append, List.nil_append]
        simp only [parseMembers, skipWs_cons_not_ws (Char.ofNat 34) (by decide)]
        simp only [hqClose, if_false, hqTrue, if_true]
        have hk := psb_roundtrip k.toList
          (((k.toList.map escapeChar).flatten
            ++ Char.ofNat 34 :: (':' :: ' ' :: (encodeValue v ++ ',' :: ' '
              :: (encodeMembers (p :: ps) ++ Char.ofNat 125 :: rest)))).length + 1)
          (':' :: ' ' :: (encodeValue v ++ ',' :: ' '
            :: (encodeMembers (p :: ps) ++ Char.ofNat 125 :: rest)))
          (by
            have := length_le_escaped k.toList
            simp only [List.length_append, List.length_cons]
            omega)
        simp only [hk]
        simp only [skipWs_cons_not_ws ':' (by decide), hColon, if_true]
        simp only [skipWs_cons_space, skipWs_encodeValue]
        simp only [parseValue_encodeValue v
          (',' :: ' ' :: (encodeMembers (p :: ps) ++ Char.ofNat 125 :: rest))
          (show isDigitChar ',' = false by decide)]
        simp only [skipWs_cons_not_ws ',' (by decide)]
        have hc1 : (',' = ',') = True := eq_true rfl
        simp only [hc1, if_true]
        simp only [parseMembers_space f hfpos, ih f rest hfl, string_mk_toList]
theorem length_encodeMembers_ge (m : Metadata) : m.length ≤ (encodeMembers m).length := by
  induction m with
  | nil => simp
  | cons kv tl ih =>
    obtain ⟨k, v⟩ := kv
    have e1 : encodeMembers ((k, v) :: tl)
        = encodeString k ++ ':' :: ' ' :: encodeValue v
          ++ (if tl.isEmpty then [] else [',', ' ']) ++ encodeMembers tl := rfl
    rw [e1]
    simp only [List.length_append, List.length_cons, encodeString, List.length_append]
    omega

theorem json_loads_dumps (m : Metadata) : json_loads (json_dumps m) = some m := by
  unfold json_loads json_dumps
  simp only [List.cons_append]
  simp only [skipWs_cons_not_ws (Char.ofNat 123) (by decide)]
  have hob : (Char.ofNat 123 = Char.ofNat 123) = True := eq_true rfl
  simp only [hob, if_true]
  have hfuel : m.length < (Char.ofNat 123 :: (encodeMembers m ++ [Char.ofNat 125])).length + 1 := by
    have := length_encodeMembers_ge m
    simp only [List.length_cons, List.length_append]
    omega
  have hpm := parseMembers_encodeMembers m
    ((Char.ofNat 123 :: (encodeMembers m ++ [Char.ofNat 125])).length + 1) [] hfuel
  simp only [show encodeMembers m ++ Char.ofNat 125 :: ([] : List Char)
    = encodeMembers m ++ [Char.ofNat 125] from rfl] at hpm
  simp only [hpm]
  rfl

theorem np_frombuffer_vec_tobytes (v : List ℕ) (h : ∀ w ∈ v, w < 4294967296) :
    np_frombuffer_f32 (vec_tobytes v) = v := by
  induction v with
  | nil => rfl
  | cons w ws ih =>
    have hw := h w (List.mem_cons_self w ws)
    have hih := ih fun x hx => h x (List.mem_cons_of_mem w hx)
    show np_frombuffer_f32
      (w % 256 :: (w / 256 % 256 :: (w / 65536 % 256 :: (w / 16777216 % 256
        :: vec_tobytes ws)))) = w :: ws
    simp only [np_frombuffer_f32, hih]
    have hrec : w % 256 + 256 * (w / 256 % 256) + 65536 * (w / 65536 % 256)
        + 16777216 * (w / 16777216 % 256) = w := by omega
    rw [hrec]
/-- C9: the storage round trip is exact: deserializing the serialized
float32 vector (`np.frombuffer` of `np.array(v).tobytes()`) returns the
bitwise-identical vector (each element a 32-bit pattern), and parsing the
serialized metadata (`json.loads` of `json.dumps`) returns a map with the
same keys and values. -/
theorem storage_round_trip_exact (v : List ℕ) (m : Metadata)
    (h : ∀ w ∈ v, w < 4294967296) :
    np_frombuffer_f32 (vec_tobytes v) = v ∧ json_loads (json_dumps m) = some m :=
  ⟨np_frombuffer_vec_tobytes v h, json_loads_dumps m⟩

theorem storage_round_trip_exact_witness :
    (∀ w ∈ [(0 : ℕ), 4294967295, 1078530011], w < 4294967296)
      ∧ np_frombuffer_f32 (vec_tobytes [0, 4294967295, 1078530011])
        = [0, 4294967295, 1078530011]
      ∧ json_loads (json_dumps [("file", Value.str "a\nb"), ("size", Value.int (-12)),
          ("ok", Value.bool true), ("tag", Value.null)])
        = some [("file", Value.str "a\nb"), ("size", Value.int (-12)),
          ("ok", Value.bool true), ("tag", Value.null)] :=
  have h := storage_round_trip_exact [0, 4294967295, 1078530011]
    [("file", Value.str "a\nb"), ("size", Value.int (-12)),
      ("ok", Value.bool true), ("tag", Value.null)] (by decide)
  ⟨by decide, h.1, h.2⟩

end PymvDB
